import Mathlib

/-!
Verification of the AppTimeTracker session-tracking core (src/main.py).

The program polls, once per tick, whether each tracked application is
running, keeps an in-memory map `_app_started_time` from application name
to the timestamp at which it was first observed running, and writes a
row (app_id, start_time, end_time, seconds) to an SQLite table whenever
an application that had a recorded start is observed not running.

This file gives a shallow embedding of that core:
* timestamps are integers counting microseconds (the resolution of
  Python's `datetime.datetime`);
* `tdSeconds` models the `.seconds` field of a Python `timedelta`,
  which is the sub-day remainder of the difference, not its total length;
* `LiveState` models the `_app_started_time` dict as an association list
  (insertion order preserved, keys unique in any state the program builds);
* `observe` is the per-application body of the main loop (main.py 197-231);
* `flushAll` is the signal handler `_exit` (main.py 116-138);
* `get_app_time_sum` is the aggregation query (main.py 81-82);
* `ensure_entity` is the per-name step of `populate_apps_table_if_needed`
  (main.py 104-109).
-/

/-- Timestamps in microseconds, the unit in which Python's `datetime`
and `timedelta` are exact. -/
abbrev Time := Int

/-- Number of microseconds in one second. -/
def usecPerSec : Int := 1000000

/-- Number of microseconds in one day. -/
def usecPerDay : Int := 86400000000

/-- Model of Python's `timedelta.seconds` field for a difference of
`delta` microseconds.  Python normalises a `timedelta` so that
`0 <= seconds < 86400`; the `seconds` field is the floor-mod of the total
length by one day, then floor-divided down to whole seconds.  Lean's `%`
and `/` on `Int` have exactly Python's floor semantics here. -/
def tdSeconds (delta : Int) : Int := (delta % usecPerDay) / usecPerSec

/-- One persisted row of the `time_tracking` table, before the entity name
is replaced by its registry id: the main loop inserts
(app_id, start_time, end_time, seconds) with
`seconds = (now - start).seconds` (main.py 219-226). -/
structure Session where
  entity : String
  start_time : Time
  end_time : Time
  seconds : Int
deriving DecidableEq, Repr

/-- The `_app_started_time` dict (main.py 87): application name mapped to
the time it was first observed running.  Modelled as an association list
in insertion order, exactly the iteration order of a Python dict. -/
abbrev LiveState := List (String × Time)

/-- Dict lookup `_app_started_time.get(app)`. -/
def lookupStart : LiveState → String → Option Time
  | [], _ => none
  | (k, v) :: rest, name => if k = name then some v else lookupStart rest name

/-- Dict assignment `_app_started_time[app] = now`: overwrite in place if
the key is present, else append (Python dicts keep insertion order). -/
def setStart : LiveState → String → Time → LiveState
  | [], name, t => [(name, t)]
  | (k, v) :: rest, name, t =>
    if k = name then (k, t) :: rest else (k, v) :: setStart rest name t

/-- Dict deletion `del _app_started_time[app]`. -/
def delStart : LiveState → String → LiveState
  | [], _ => []
  | (k, v) :: rest, name => if k = name then rest else (k, v) :: delStart rest name

/-- One observation step for one application: the body of the inner
`for app in TRACKED_APPS` loop (main.py 197-231).  Returns the new
`_app_started_time` and the row inserted this step, if any. -/
def observe (st : LiveState) (app : String) (isRunning : Bool) (now : Time) :
    LiveState × Option Session :=
  if isRunning then
    match lookupStart st app with
    | none => (setStart st app now, none)
    | some _ => (st, none)
  else
    match lookupStart st app with
    | none => (st, none)
    | some start =>
      (delStart st app,
       some { entity := app, start_time := start, end_time := now,
              seconds := tdSeconds (now - start) })

/-- A sequence of observation steps for one fixed application, collecting
every row emitted along the way.  Each element of the list is the pair
(result of `app_running(app)`, the `now` captured for that tick). -/
def stepMany (app : String) : LiveState → List (Bool × Time) → LiveState × List Session
  | st, [] => (st, [])
  | st, (b, t) :: rest =>
    let r1 := observe st app b t
    let r2 := stepMany app r1.1 rest
    (r2.1, r1.2.toList ++ r2.2)

/-- Rows written by the `for app, start in _app_started_time.items()` loop
of `_exit` (main.py 120-133).  The handler calls `datetime.datetime.now()`
again on every iteration, so the clock is a function of the iteration
index, not a single value. -/
def flushSessions (clock : Nat → Time) : Nat → LiveState → List Session
  | _, [] => []
  | i, (app, start) :: rest =>
    { entity := app, start_time := start, end_time := clock i,
      seconds := tdSeconds (clock i - start) } :: flushSessions clock (i + 1) rest

/-- The shutdown flush `_exit` (main.py 116-138): emits one row per entry
of `_app_started_time`, in dict order, and returns the final value of
`_app_started_time` (the handler never mutates the dict; the process
exits immediately afterwards). -/
def flushAll (st : LiveState) (clock : Nat → Time) : List Session × LiveState :=
  (flushSessions clock 0 st, st)

/-- The `apps` registry table: rows (ROWID, name), `name` declared UNIQUE
(main.py 60-64). -/
abbrev AppsTable := List (Nat × String)

/-- One row of the `time_tracking` table (main.py 69-76). -/
structure SessionRow where
  app_id : Nat
  start_time : Time
  end_time : Time
  seconds : Int
deriving DecidableEq, Repr

/-- The aggregation query `get_app_time_sum` (main.py 81-82):
SELECT name, SUM(seconds) FROM time_tracking JOIN apps
ON app_id = apps.ROWID GROUP BY name.  Because `name` is UNIQUE in `apps`,
grouping the inner join by name is grouping by `apps` row: each `apps` row
matched by at least one `time_tracking` row contributes the pair
(name, sum of the matching rows' seconds); unmatched rows contribute
nothing. -/
def get_app_time_sum (apps : AppsTable) (rows : List SessionRow) : List (String × Int) :=
  (apps.filter (fun a => rows.any (fun r => r.app_id == a.1))).map
    (fun a => (a.2, ((rows.filter (fun r => r.app_id == a.1)).map SessionRow.seconds).sum))

/-- SQLite assigns a fresh ROWID larger than every existing one. -/
def nextRowid (tbl : AppsTable) : Nat := (tbl.map Prod.fst).foldl max 0 + 1

/-- The per-name step of `populate_apps_table_if_needed` (main.py 104-109):
if no `apps` row has this name, insert one; otherwise leave the table
untouched. -/
def ensure_entity (tbl : AppsTable) (name : String) : AppsTable :=
  if tbl.any (fun a => a.2 == name) then tbl else tbl ++ [(nextRowid tbl, name)]

/-- The configured watch list (main.py 14). -/
def TRACKED_APPS : List String :=
  ["code", "firefox", "pycharm", "konsole", "spotify", "nvim", "foot"]

/-- Startup registry population (main.py 104-109). -/
def populate_apps_table_if_needed (tbl : AppsTable) : AppsTable :=
  TRACKED_APPS.foldl ensure_entity tbl

/-- Name-to-id lookup as built by `get_app_name_id_mapping` (main.py 66-67);
with `name` UNIQUE the first match is the only match. -/
def get_app_name_id_mapping (tbl : AppsTable) (name : String) : Option Nat :=
  (tbl.find? (fun a => a.2 == name)).map Prod.fst

/- ### Helper lemmas about the dict operations -/

lemma lookupStart_setStart_self (st : LiveState) (app : String) (t : Time) :
    lookupStart (setStart st app t) app = some t := by
  induction st with
  | nil => simp [setStart, lookupStart]
  | cons hd tl ih =>
    obtain ⟨k, v⟩ := hd
    by_cases hk : k = app
    · simp [setStart, lookupStart, hk]
    · simp [setStart, lookupStart, hk, ih]

lemma lookupStart_setStart_ne (st : LiveState) (app app' : String) (t : Time)
    (h : app' ≠ app) :
    lookupStart (setStart st app t) app' = lookupStart st app' := by
  have h2 : app ≠ app' := Ne.symm h
  induction st with
  | nil => simp [setStart, lookupStart, h2]
  | cons hd tl ih =>
    obtain ⟨k, v⟩ := hd
    by_cases hk : k = app
    · subst hk
      simp [setStart, lookupStart, h2]
    · by_cases hk' : k = app'
      · simp [setStart, lookupStart, hk, hk', h]
      · simp [setStart, lookupStart, hk, hk', ih]

lemma lookupStart_delStart_ne (st : LiveState) (app app' : String)
    (h : app' ≠ app) :
    lookupStart (delStart st app) app' = lookupStart st app' := by
  induction st with
  | nil => simp [delStart]
  | cons hd tl ih =>
    obtain ⟨k, v⟩ := hd
    by_cases hk : k = app
    · subst hk
      simp [delStart, lookupStart, Ne.symm h]
    · by_cases hk' : k = app'
      · simp [delStart, lookupStart, hk, hk', h]
      · simp [delStart, lookupStart, hk, hk', ih]

lemma lookupStart_eq_none_of_not_mem (st : LiveState) (app : String)
    (h : app ∉ st.map Prod.fst) :
    lookupStart st app = none := by
  induction st with
  | nil => simp [lookupStart]
  | cons hd tl ih =>
    obtain ⟨k, v⟩ := hd
    simp only [List.map_cons, List.mem_cons] at h
    push_neg at h
    have hk : k ≠ app := Ne.symm h.1
    simp [lookupStart, hk, ih h.2]

lemma delStart_sublist (st : LiveState) (app : String) :
    List.Sublist (delStart st app) st := by
  induction st with
  | nil => simp [delStart]
  | cons hd tl ih =>
    obtain ⟨k, v⟩ := hd
    by_cases hk : k = app
    · rw [delStart, if_pos hk]
      exact (List.Sublist.refl tl).cons (k, v)
    · rw [delStart, if_neg hk]
      exact ih.cons₂ (k, v)

lemma nodup_keys_delStart (st : LiveState) (app : String)
    (h : (st.map Prod.fst).Nodup) :
    ((delStart st app).map Prod.fst).Nodup :=
  ((delStart_sublist st app).map Prod.fst).nodup h

lemma lookupStart_delStart_self (st : LiveState) (app : String)
    (h : (st.map Prod.fst).Nodup) :
    lookupStart (delStart st app) app = none := by
  induction st with
  | nil => simp [delStart, lookupStart]
  | cons hd tl ih =>
    obtain ⟨k, v⟩ := hd
    simp only [List.map_cons, List.nodup_cons] at h
    by_cases hk : k = app
    · subst hk
      simpa [delStart] using lookupStart_eq_none_of_not_mem tl k h.1
    · simp [delStart, lookupStart, hk, ih h.2]

lemma keys_setStart_mem (st : LiveState) (app : String) (t : Time)
    (h : app ∈ st.map Prod.fst) :
    (setStart st app t).map Prod.fst = st.map Prod.fst := by
  induction st with
  | nil => simp at h
  | cons hd tl ih =>
    obtain ⟨k, v⟩ := hd
    by_cases hk : k = app
    · subst hk
      simp [setStart]
    · have h' : app ∈ tl.map Prod.fst := by
        simp only [List.map_cons, List.mem_cons] at h
        rcases h with h | h
        · exact absurd h.symm hk
        · exact h
      simp [setStart, hk, ih h']

lemma keys_setStart_not_mem (st : LiveState) (app : String) (t : Time)
    (h : app ∉ st.map Prod.fst) :
    (setStart st app t).map Prod.fst = st.map Prod.fst ++ [app] := by
  induction st with
  | nil => simp [setStart]
  | cons hd tl ih =>
    obtain ⟨k, v⟩ := hd
    simp only [List.map_cons, List.mem_cons] at h
    push_neg at h
    have hk : k ≠ app := Ne.symm h.1
    simp [setStart, hk, ih h.2]

lemma nodup_keys_setStart (st : LiveState) (app : String) (t : Time)
    (h : (st.map Prod.fst).Nodup) :
    ((setStart st app t).map Prod.fst).Nodup := by
  by_cases hm : app ∈ st.map Prod.fst
  · rw [keys_setStart_mem st app t hm]
    exact h
  · rw [keys_setStart_not_mem st app t hm]
    simp [List.nodup_append, h, hm]

/- ### The four cases of the observation step -/

lemma observe_not_running_absent {st : LiveState} {app : String} (now : Time)
    (h : lookupStart st app = none) :
    observe st app false now = (st, none) := by
  simp [observe, h]

lemma observe_running_absent {st : LiveState} {app : String} (now : Time)
    (h : lookupStart st app = none) :
    observe st app true now = (setStart st app now, none) := by
  simp [observe, h]

lemma observe_running_present {st : LiveState} {app : String} {S : Time} (now : Time)
    (h : lookupStart st app = some S) :
    observe st app true now = (st, none) := by
  simp [observe, h]

lemma observe_not_running_present {st : LiveState} {app : String} {S : Time} (now : Time)
    (h : lookupStart st app = some S) :
    observe st app false now =
      (delStart st app,
       some { entity := app, start_time := S, end_time := now,
              seconds := tdSeconds (now - S) }) := by
  simp [observe, h]

/-- C2.  The observation step satisfies the four-way case split: not
running and no recorded start leaves the state unchanged and emits
nothing; running and no recorded start records start=now and emits
nothing; running with a recorded start changes nothing; not running with
recorded start S removes the entry and emits the session
(app, S, now). -/
theorem observe_case_split (st : LiveState) (app : String) (now : Time) :
    (lookupStart st app = none → observe st app false now = (st, none)) ∧
    (lookupStart st app = none → observe st app true now = (setStart st app now, none)) ∧
    (∀ S, lookupStart st app = some S → observe st app true now = (st, none)) ∧
    (∀ S, lookupStart st app = some S →
      observe st app false now =
        (delStart st app,
         some { entity := app, start_time := S, end_time := now,
                seconds := tdSeconds (now - S) })) :=
  ⟨fun h => observe_not_running_absent now h,
   fun h => observe_running_absent now h,
   fun _ h => observe_running_present now h,
   fun _ h => observe_not_running_present now h⟩

/-- Witness for C2: the four cases at concrete inputs. -/
theorem observe_case_split_witness :
    observe [("code", 5000000)] "code" false 9000000
      = (delStart [("code", 5000000)] "code",
         some { entity := "code", start_time := 5000000, end_time := 9000000,
                seconds := tdSeconds (9000000 - 5000000) }) ∧
    observe ([] : LiveState) "code" true 9000000
      = (setStart [] "code" 9000000, none) :=
  ⟨(observe_case_split [("code", 5000000)] "code" 9000000).2.2.2 5000000 (by decide),
   (observe_case_split [] "code" 9000000).2.1 (by decide)⟩

/-- C9.  Frame property: an observation step for `app` leaves the
recorded start of every other application exactly as it was, in all four
cases. -/
theorem observe_frame (st : LiveState) (app app' : String) (running : Bool)
    (now : Time) (h : app' ≠ app) :
    lookupStart ((observe st app running now).1) app' = lookupStart st app' := by
  cases running <;> rw [observe] <;> cases hl : lookupStart st app <;>
    simp [hl, lookupStart_setStart_ne st app app' now h,
          lookupStart_delStart_ne st app app' h]

/-- Witness for C9 at a concrete state. -/
theorem observe_frame_witness :
    lookupStart ((observe [("code", 5000000), ("firefox", 3000000)] "code" false 9000000).1)
        "firefox"
      = lookupStart [("code", 5000000), ("firefox", 3000000)] "firefox" :=
  observe_frame [("code", 5000000), ("firefox", 3000000)] "code" "firefox" false 9000000
    (by decide)

/-- C10.  The persisted seconds value, computed as the sub-day `.seconds`
field of the timestamp difference, always lies in [0, 86399], whatever
the two timestamps are. -/
theorem tdSeconds_range (s e : Time) :
    0 ≤ tdSeconds (e - s) ∧ tdSeconds (e - s) ≤ 86399 := by
  unfold tdSeconds usecPerDay usecPerSec
  constructor
  · exact Int.ediv_nonneg (Int.emod_nonneg _ (by decide)) (by decide)
  · have h1 : (e - s) % 86400000000 < 86400000000 :=
      Int.emod_lt_of_pos _ (by decide)
    have h2 : (e - s) % 86400000000 ≤ 86399999999 := by
      have h1' := Int.lt_iff_add_one_le.mp h1
      linarith
    have h3 := Int.ediv_le_ediv (by decide : (0 : Int) < 1000000) h2
    norm_num at h3
    exact h3

/-- C3 (failing evidence).  A session lasting exactly 24 hours is
persisted with seconds = 0, not 86400: the sub-day field discards whole
days, so the persisted value is not the floor of the total difference. -/
theorem observe_full_day_truncates :
    observe [("code", 0)] "code" false 86400000000
      = ([], some { entity := "code", start_time := 0, end_time := 86400000000,
                    seconds := 0 })
      ∧ (86400000000 - 0 : Int) / usecPerSec = 86400 := by
  constructor
  · rfl
  · decide

/-- C4 (failing evidence).  With a recorded start at t=100s and the clock
moved back to now=90s, the step persists seconds = 86390 (the sub-day
remainder of the negative difference), not the clamped value 0 the claim
requires. -/
theorem observe_clock_backward_no_clamp :
    observe [("code", 100000000)] "code" false 90000000
      = ([], some { entity := "code", start_time := 100000000, end_time := 90000000,
                    seconds := 86390 }) := by
  rfl

/- ### Sequences of observation steps -/

lemma stepMany_nil (app : String) (st : LiveState) : stepMany app st [] = (st, []) := rfl

lemma stepMany_cons (app : String) (st : LiveState) (b : Bool) (t : Time)
    (rest : List (Bool × Time)) :
    stepMany app st ((b, t) :: rest) =
      ((stepMany app (observe st app b t).1 rest).1,
       (observe st app b t).2.toList ++ (stepMany app (observe st app b t).1 rest).2) := rfl

lemma stepMany_append (app : String) (xs ys : List (Bool × Time)) :
    ∀ st : LiveState,
      stepMany app st (xs ++ ys) =
        ((stepMany app (stepMany app st xs).1 ys).1,
         (stepMany app st xs).2 ++ (stepMany app (stepMany app st xs).1 ys).2) := by
  induction xs with
  | nil => intro st; simp [stepMany_nil]
  | cons hd tl ih =>
    intro st
    obtain ⟨b, t⟩ := hd
    simp [stepMany_cons, ih, List.append_assoc]

lemma stepMany_running_present (app : String) (ts : List Time) :
    ∀ (st : LiveState) (S : Time), lookupStart st app = some S →
      stepMany app st (ts.map (fun t => (true, t))) = (st, []) := by
  induction ts with
  | nil => intro st S _; rfl
  | cons t ts ih =>
    intro st S h
    rw [List.map_cons, stepMany_cons, observe_running_present t h]
    simp [ih st S h]

/-- C1.  Conservation: starting with no recorded start, observing the
application running at t1, t2, ..., tn and then not running at tEnd emits
exactly one session over those n+1 steps, starting at t1 (the tick at
which it was first seen running) and ending at tEnd. -/
theorem conservation (app : String) (st : LiveState) (t1 : Time) (ts : List Time)
    (tEnd : Time) (h0 : lookupStart st app = none)
    (hmono : List.Chain' (· ≤ ·) (t1 :: (ts ++ [tEnd]))) :
    (stepMany app st ((t1 :: ts).map (fun t => (true, t)) ++ [(false, tEnd)])).2
      = [{ entity := app, start_time := t1, end_time := tEnd,
           seconds := tdSeconds (tEnd - t1) }] := by
  rw [List.map_cons, List.cons_append, stepMany_cons, observe_running_absent t1 h0]
  have hself := lookupStart_setStart_self st app t1
  rw [stepMany_append app (ts.map (fun t => (true, t))) [(false, tEnd)],
      stepMany_running_present app ts (setStart st app t1) t1 hself]
  rw [stepMany_cons, observe_not_running_present tEnd hself]
  simp [stepMany_nil, Option.toList]

/-- Witness for C1: the scenario of the specification, running at
t = 0s, 60s, 120s and stopped at t = 180s gives the single session
(0s, 180s) of 180 seconds. -/
theorem conservation_witness :
    (stepMany "code" []
        [(true, 0), (true, 60000000), (true, 120000000), (false, 180000000)]).2
      = [{ entity := "code", start_time := 0, end_time := 180000000,
           seconds := 180 }] := by
  have h := conservation "code" [] 0 [60000000, 120000000] 180000000 rfl
    (by norm_num [List.chain'_cons])
  exact h.trans (by decide)

/-- Invariant carried through a run of observation steps for one
application: provided the keys are distinct, the times strictly
increase and any recorded start is at most the lower bound t, every
emitted session closes strictly after it opens, opens no earlier than
the recorded start (or strictly after t if nothing is recorded), and the
sessions are pairwise ordered end-before-start. -/
lemma stepMany_sessions_sound (app : String) :
    ∀ (obs : List (Bool × Time)) (st : LiveState) (t : Time),
      (st.map Prod.fst).Nodup →
      List.Chain' (· < ·) (t :: obs.map Prod.snd) →
      (∀ S, lookupStart st app = some S → S ≤ t) →
      (∀ s ∈ (stepMany app st obs).2, s.start_time < s.end_time) ∧
      (∀ S, lookupStart st app = some S →
        ∀ s ∈ (stepMany app st obs).2, S ≤ s.start_time) ∧
      (lookupStart st app = none →
        ∀ s ∈ (stepMany app st obs).2, t < s.start_time) ∧
      List.Pairwise (fun a b => a.end_time ≤ b.start_time) (stepMany app st obs).2 := by
  intro obs
  induction obs with
  | nil =>
    intro st t _ _ _
    simp [stepMany_nil]
  | cons o rest ih =>
    obtain ⟨b, now⟩ := o
    intro st t hnd hc hs
    simp only [List.map_cons] at hc
    have hc0 := List.chain'_cons.mp hc
    have htnow : t < now := hc0.1
    have hc' := hc0.2
    cases b
    · cases hl : lookupStart st app with
      | none =>
        simp only [stepMany_cons, observe_not_running_absent now hl, Option.toList,
                   List.nil_append]
        obtain ⟨ih1, ih2, ih3, ih4⟩ := ih st now hnd hc'
          (fun S hS => by rw [hl] at hS; cases hS)
        refine ⟨ih1, ?_, ?_, ih4⟩
        · intro S hS
          exact Option.noConfusion hS
        · intro _ s hsmem
          exact lt_trans htnow (ih3 hl s hsmem)
      | some S =>
        simp only [stepMany_cons, observe_not_running_present now hl, Option.toList,
                   List.cons_append, List.nil_append]
        have hnd' := nodup_keys_delStart st app hnd
        have hldel := lookupStart_delStart_self st app hnd
        obtain ⟨ih1, ih2, ih3, ih4⟩ := ih (delStart st app) now hnd' hc'
          (fun S' hS' => by rw [hldel] at hS'; cases hS')
        have hSt : S ≤ t := hs S hl
        refine ⟨?_, ?_, ?_, ?_⟩
        · intro s hsmem
          rcases List.mem_cons.mp hsmem with rfl | hmem
          · exact lt_of_le_of_lt hSt htnow
          · exact ih1 s hmem
        · intro S' hS' s hsmem
          injection hS' with hSS
          rcases List.mem_cons.mp hsmem with rfl | hmem
          · exact le_of_eq hSS.symm
          · exact le_trans (le_of_eq hSS.symm)
              (le_of_lt (lt_trans (lt_of_le_of_lt hSt htnow) (ih3 hldel s hmem)))
        · intro hnone
          exact Option.noConfusion hnone
        · refine List.pairwise_cons.mpr ⟨?_, ih4⟩
          intro s hmem
          exact le_of_lt (ih3 hldel s hmem)
    · cases hl : lookupStart st app with
      | none =>
        simp only [stepMany_cons, observe_running_absent now hl, Option.toList,
                   List.nil_append]
        have hnd' := nodup_keys_setStart st app now hnd
        have hlset := lookupStart_setStart_self st app now
        obtain ⟨ih1, ih2, ih3, ih4⟩ := ih (setStart st app now) now hnd' hc'
          (fun S' hS' => by
            rw [hlset] at hS'
            injection hS' with h_
            exact le_of_eq h_.symm)
        refine ⟨ih1, ?_, ?_, ih4⟩
        · intro S hS
          exact Option.noConfusion hS
        · intro _ s hsmem
          exact lt_of_lt_of_le htnow (ih2 now hlset s hsmem)
      | some S =>
        simp only [stepMany_cons, observe_running_present now hl, Option.toList,
                   List.nil_append]
        obtain ⟨ih1, ih2, ih3, ih4⟩ := ih st now hnd hc'
          (fun S' hS' => by
            rw [hl] at hS'
            injection hS' with h_
            have hSnow : S ≤ now := le_of_lt (lt_of_le_of_lt (hs S hl) htnow)
            exact h_ ▸ hSnow)
        refine ⟨ih1, ?_, ?_, ih4⟩
        · intro S' hS' s hsmem
          injection hS' with hSS
          exact hSS ▸ ih2 S hl s hsmem
        · intro hnone
          exact Option.noConfusion hnone

/-- C6.  No overlap: starting with no recorded start for the
application and with strictly increasing tick times, the sessions
emitted for it are pairwise non-overlapping (each ends no later than the
next starts), each closes strictly after it opens, and they are strictly
ordered by start time. -/
theorem no_overlap (app : String) (st : LiveState) (obs : List (Bool × Time))
    (hnd : (st.map Prod.fst).Nodup) (h0 : lookupStart st app = none)
    (hmono : List.Chain' (· < ·) (obs.map Prod.snd)) :
    List.Pairwise (fun a b => a.end_time ≤ b.start_time) (stepMany app st obs).2 ∧
    (∀ s ∈ (stepMany app st obs).2, s.start_time < s.end_time) ∧
    List.Pairwise (fun a b => a.start_time < b.start_time) (stepMany app st obs).2 := by
  cases obs with
  | nil => simp [stepMany_nil]
  | cons o rest =>
    have hmono' : List.Chain' (· < ·) (o.2 :: rest.map Prod.snd) := by
      simpa [List.map_cons] using hmono
    have hc : List.Chain' (· < ·) ((o.2 - 1) :: (o :: rest).map Prod.snd) := by
      rw [List.map_cons]
      exact List.chain'_cons.mpr ⟨sub_one_lt o.2, hmono'⟩
    obtain ⟨h1, _, _, h4⟩ := stepMany_sessions_sound app (o :: rest) st (o.2 - 1) hnd hc
      (fun S hS => by rw [h0] at hS; cases hS)
    refine ⟨h4, h1, ?_⟩
    exact h4.imp_of_mem (fun ha _ hr => lt_of_lt_of_le (h1 _ ha) hr)

/-- Witness for C6 at a concrete run: two sessions (0, 10) and (20, 30). -/
theorem no_overlap_witness :
    List.Pairwise (fun a b => a.end_time ≤ b.start_time)
      (stepMany "code" [] [(true, 0), (false, 10), (true, 20), (false, 30)]).2 ∧
    (∀ s ∈ (stepMany "code" [] [(true, 0), (false, 10), (true, 20), (false, 30)]).2,
      s.start_time < s.end_time) ∧
    List.Pairwise (fun a b => a.start_time < b.start_time)
      (stepMany "code" [] [(true, 0), (false, 10), (true, 20), (false, 30)]).2 :=
  no_overlap "code" [] [(true, 0), (false, 10), (true, 20), (false, 30)]
    (by decide) rfl (by norm_num [List.chain'_cons])

/- ### The shutdown flush -/

lemma flushSessions_length (clock : Nat → Time) :
    ∀ (i : Nat) (st : LiveState), (flushSessions clock i st).length = st.length := by
  intro i st
  induction st generalizing i with
  | nil => rfl
  | cons hd tl ih =>
    obtain ⟨a, s⟩ := hd
    simp [flushSessions, ih]

lemma flushSessions_getElem (clock : Nat → Time) :
    ∀ (st : LiveState) (j i : Nat),
      (flushSessions clock j st)[i]? = (st[i]?).map
        (fun p => { entity := p.1, start_time := p.2, end_time := clock (j + i),
                    seconds := tdSeconds (clock (j + i) - p.2) }) := by
  intro st
  induction st with
  | nil => intro j i; simp [flushSessions]
  | cons hd tl ih =>
    intro j i
    obtain ⟨a, s⟩ := hd
    cases i with
    | zero => simp [flushSessions]
    | succ i' =>
      simp only [flushSessions, List.getElem?_cons_succ]
      rw [ih (j + 1) i']
      have harith : j + 1 + i' = j + (i' + 1) := by omega
      rw [harith]

/-- Demonstration state with two open applications, as `_exit` would see
when the signal arrives. -/
def flushDemoState : LiveState := [("firefox", 400000000), ("code", 300000000)]

/-- A clock that advances by 100 s between the two `datetime.now()` calls
made inside the `_exit` loop. -/
def flushDemoClock : Nat → Time := fun i => 500000000 + 100000000 * (i : Int)

/-- C5 (counterexample).  At a state with two open applications and a
clock that advances between the iterations of the `_exit` loop, the flush
does not give every synthesized session one single end time, and it does
not leave the live state empty: `_exit` re-reads the clock on every
iteration and never clears `_app_started_time`. -/
theorem flush_single_now_counterexample :
    (¬ ∃ n : Time, ∀ s ∈ (flushAll flushDemoState flushDemoClock).1, s.end_time = n) ∧
    (flushAll flushDemoState flushDemoClock).2 ≠ [] := by
  constructor
  · rintro ⟨n, hn⟩
    have h1 := hn { entity := "firefox", start_time := 400000000,
                    end_time := 500000000, seconds := 100 } (by decide)
    have h2 := hn { entity := "code", start_time := 300000000,
                    end_time := 600000000, seconds := 300 } (by decide)
    have e1 : (500000000 : Time) = n := h1
    have e2 : (600000000 : Time) = n := h2
    exact absurd (e1.trans e2.symm) (by decide)
  · intro h
    exact List.noConfusion h

/-- C5 (amended).  The `_exit` flush over a live state with k entries
produces exactly k sessions, the i-th session starting at the i-th
entry's recorded start and ending at the clock value read during that
entry's iteration, and it leaves the live state exactly as it was (the
process exits right afterwards; nothing clears the dict). -/
theorem flush_all_amended (st : LiveState) (clock : Nat → Time)
    (hnd : (st.map Prod.fst).Nodup) :
    (flushAll st clock).1.length = st.length ∧
    (∀ i : Nat, i < st.length →
      (flushAll st clock).1[i]? = (st[i]?).map
        (fun p => { entity := p.1, start_time := p.2, end_time := clock i,
                    seconds := tdSeconds (clock i - p.2) })) ∧
    (flushAll st clock).2 = st := by
  refine ⟨flushSessions_length clock 0 st, ?_, rfl⟩
  intro i _
  have h := flushSessions_getElem clock st 0 i
  simpa using h

/-- Witness for the amended C5 at a one-entry state. -/
theorem flush_all_amended_witness :
    (flushAll [("firefox", 400000000)] flushDemoClock).1.length = 1 ∧
    (flushAll [("firefox", 400000000)] flushDemoClock).1[0]? =
      (([("firefox", 400000000)] : LiveState)[0]?).map
        (fun p => { entity := p.1, start_time := p.2, end_time := flushDemoClock 0,
                    seconds := tdSeconds (flushDemoClock 0 - p.2) }) ∧
    (flushAll [("firefox", 400000000)] flushDemoClock).2 = [("firefox", 400000000)] := by
  have h := flush_all_amended [("firefox", 400000000)] flushDemoClock (by decide)
  exact ⟨h.1, h.2.1 0 (by decide), h.2.2⟩

/- ### Aggregation -/

lemma mem_get_app_time_sum (apps : AppsTable) (rows : List SessionRow)
    (name : String) (total : Int) :
    (name, total) ∈ get_app_time_sum apps rows ↔
      ∃ id : Nat, (id, name) ∈ apps ∧ (rows.any (fun r => r.app_id == id)) = true ∧
        total = ((rows.filter (fun r => r.app_id == id)).map SessionRow.seconds).sum := by
  constructor
  · intro hmem
    simp only [get_app_time_sum, List.mem_map] at hmem
    obtain ⟨a, ha, hfa⟩ := hmem
    obtain ⟨ida, na⟩ := a
    rw [List.mem_filter] at ha
    injection hfa with hf1 hf2
    exact ⟨ida, hf1 ▸ ha.1, ha.2, hf2.symm⟩
  · rintro ⟨id, hmem, hany, htot⟩
    subst htot
    exact List.mem_map.mpr ⟨(id, name), List.mem_filter.mpr ⟨hmem, hany⟩, rfl⟩

lemma apps_nodup_name_id_unique :
    ∀ (apps : AppsTable), (apps.map Prod.snd).Nodup →
      ∀ {id id' : Nat} {name : String},
        (id, name) ∈ apps → (id', name) ∈ apps → id = id' := by
  intro apps
  induction apps with
  | nil =>
    intro _ id id' name h1 _
    cases h1
  | cons a rest ih =>
    intro hnd id id' name h1 h2
    simp only [List.map_cons, List.nodup_cons] at hnd
    rcases List.mem_cons.mp h1 with e1 | m1 <;> rcases List.mem_cons.mp h2 with e2 | m2
    · exact congrArg Prod.fst (e1.trans e2.symm)
    · exfalso
      have hmn : name ∈ rest.map Prod.snd := List.mem_map_of_mem Prod.snd m2
      have hna : a.2 = name := by rw [← e1]
      exact hnd.1 (by rw [hna]; exact hmn)
    · exfalso
      have hmn : name ∈ rest.map Prod.snd := List.mem_map_of_mem Prod.snd m1
      have hna : a.2 = name := by rw [← e2]
      exact hnd.1 (by rw [hna]; exact hmn)
    · exact ih hnd.2 m1 m2

/-- C7.  Aggregation correctness: a pair (name, total) is in the result
of the aggregation query exactly when some registry row (id, name) has
at least one matching persisted session and total is the sum of the
matching sessions' seconds; an entity with no persisted session does not
appear in the result. -/
theorem sum_by_entity_correct (apps : AppsTable) (rows : List SessionRow)
    (hnames : (apps.map Prod.snd).Nodup) :
    (∀ (name : String) (total : Int),
      (name, total) ∈ get_app_time_sum apps rows ↔
        ∃ id : Nat, (id, name) ∈ apps ∧ (rows.any (fun r => r.app_id == id)) = true ∧
          total = ((rows.filter (fun r => r.app_id == id)).map SessionRow.seconds).sum) ∧
    (∀ (id : Nat) (name : String), (id, name) ∈ apps →
      (rows.any (fun r => r.app_id == id)) = false →
      ∀ total : Int, (name, total) ∉ get_app_time_sum apps rows) := by
  refine ⟨fun name total => mem_get_app_time_sum apps rows name total, ?_⟩
  intro id name hmem hany total hcontra
  obtain ⟨id', hmem', hany', _⟩ := (mem_get_app_time_sum apps rows name total).mp hcontra
  have hid : id = id' := apps_nodup_name_id_unique apps hnames hmem hmem'
  rw [← hid] at hany'
  rw [hany] at hany'
  exact Bool.noConfusion hany'

/-- Registry and session log of the specification's aggregation
scenario: sessions (code, 100 s), (code, 50 s), (firefox, 30 s). -/
def demoApps : AppsTable := [(1, "code"), (2, "firefox"), (3, "pycharm")]

/-- Three persisted sessions for the aggregation scenario. -/
def demoRows : List SessionRow :=
  [{ app_id := 1, start_time := 0, end_time := 100000000, seconds := 100 },
   { app_id := 1, start_time := 200000000, end_time := 250000000, seconds := 50 },
   { app_id := 2, start_time := 0, end_time := 30000000, seconds := 30 }]

/-- Witness for C7: code aggregates to 150 s, and pycharm, which has no
sessions, is absent. -/
theorem sum_by_entity_correct_witness :
    ("code", 150) ∈ get_app_time_sum demoApps demoRows ∧
    ("pycharm", 0) ∉ get_app_time_sum demoApps demoRows := by
  have h := sum_by_entity_correct demoApps demoRows (by decide)
  exact ⟨(h.1 "code" 150).mpr ⟨1, by decide, by decide, by decide⟩,
         h.2 3 "pycharm" (by decide) (by decide) 0⟩

/- ### Entity registry -/

/-- C8.  Registry idempotence: ensuring a name that is already present
changes nothing (so the id it maps to is unchanged); ensuring any name
only ever appends (existing rows are never updated or deleted); the
ensured name is present afterwards; the operation is idempotent; and
name-uniqueness of the registry is preserved, so at most one row per
name ever exists. -/
theorem ensure_entity_registry (tbl : AppsTable) (name : String) :
    ((tbl.any (fun a => a.2 == name)) = true → ensure_entity tbl name = tbl) ∧
    ((tbl.any (fun a => a.2 == name)) = true →
      get_app_name_id_mapping (ensure_entity tbl name) name
        = get_app_name_id_mapping tbl name) ∧
    List.IsPrefix tbl (ensure_entity tbl name) ∧
    name ∈ (ensure_entity tbl name).map Prod.snd ∧
    ensure_entity (ensure_entity tbl name) name = ensure_entity tbl name ∧
    ((tbl.map Prod.snd).Nodup → ((ensure_entity tbl name).map Prod.snd).Nodup) := by
  by_cases h : (tbl.any (fun a => a.2 == name)) = true
  · have he : ensure_entity tbl name = tbl := by
      unfold ensure_entity
      rw [if_pos h]
    refine ⟨fun _ => he, fun _ => by rw [he], ?_, ?_, ?_, ?_⟩
    · rw [he]
    · rw [he]
      obtain ⟨a, ha, hae⟩ := List.any_eq_true.mp h
      have hae' : a.2 = name := by simpa using hae
      exact hae' ▸ List.mem_map_of_mem Prod.snd ha
    · rw [he, he]
    · intro hn
      rw [he]
      exact hn
  · have he : ensure_entity tbl name = tbl ++ [(nextRowid tbl, name)] := by
      unfold ensure_entity
      rw [if_neg h]
    refine ⟨fun hc => absurd hc h, fun hc => absurd hc h, ?_, ?_, ?_, ?_⟩
    · rw [he]
      exact List.prefix_append tbl _
    · rw [he]
      simp
    · rw [he]
      have hany : ((tbl ++ [(nextRowid tbl, name)]).any (fun a => a.2 == name)) = true := by
        simp [List.any_append]
      unfold ensure_entity
      rw [if_pos hany]
    · intro hn
      rw [he]
      have hnotmem : name ∉ tbl.map Prod.snd := by
        intro hmem
        obtain ⟨a, ha, hae⟩ := List.mem_map.mp hmem
        exact h (List.any_eq_true.mpr ⟨a, ha, by simp [hae]⟩)
      simp [List.nodup_append, hn, hnotmem]

/-- Witness for C8: ensuring an existing name is the identity and keeps
the mapping; ensuring a new name appends and keeps names unique. -/
theorem ensure_entity_registry_witness :
    ensure_entity [(1, "code")] "code" = [(1, "code")] ∧
    get_app_name_id_mapping (ensure_entity [(1, "code")] "code") "code"
      = get_app_name_id_mapping [(1, "code")] "code" ∧
    List.IsPrefix [(1, "code")] (ensure_entity [(1, "code")] "firefox") ∧
    ((ensure_entity [(1, "code")] "firefox").map Prod.snd).Nodup := by
  have h1 := ensure_entity_registry [(1, "code")] "code"
  have h2 := ensure_entity_registry [(1, "code")] "firefox"
  exact ⟨h1.1 (by decide), h1.2.1 (by decide), h2.2.2.1, h2.2.2.2.2.2 (by decide)⟩
